import Mathlib

/-!
Verification of the diagram cache-and-embedding pipeline of `src/tikz.rs`
(`Tikz::replace`, `Tikz::is_filename` and the helpers they use).

The Rust code is shallowly embedded: the session cache `images` becomes an
append-only association list that is threaded explicitly, the external
collaborators (the LaTeX renderer `Tikz::invoke_latex`, Rust's `DefaultHasher`,
`std::str::from_utf8` plus the `svg_metadata` crate) become an explicit
environment of functions, and the regex `REGEX_PATTERN_TIKZ` becomes an
executable scanner implementing the leftmost, lazy match semantics of the
`regex` crate for exactly that pattern.
-/

namespace Tikz

/-- One rendering attempt's result: Rust `Result<Vec<u8>, String>` as produced by
`Tikz::invoke_latex` (src/tikz.rs lines 140-168). Image bytes are modelled as naturals. -/
abbrev RenderResult := Except String (List Nat)

/-- The width unit enumeration of the external `svg_metadata` crate (`svg_metadata::Unit`). -/
inductive SvgUnit
  | Em | Ex | Px | In | Cm | Mm | Pt | Pc | Percent
  deriving DecidableEq, Repr

/-- Outcome of reading the declared width from rendered image bytes. This is the external
boundary crossed by `replace` at src/tikz.rs lines 118-119: `std::str::from_utf8` yields
`notUtf8` on failure, `svg_metadata::Metadata::parse` yields `parseErr` on failure, an
absent `width` field yields `noWidth`, and otherwise `width` carries the `f64` magnitude
already rendered by Rust's `Display` (a decimal string, never containing a newline)
together with the declared unit. -/
inductive MetaOutcome
  | notUtf8
  | parseErr
  | noWidth
  | width (mag : String) (u : SvgUnit)
  deriving DecidableEq, Repr

/-- The panic sites of `Tikz::replace` (src/tikz.rs lines 118-126):
`std::str::from_utf8(..).unwrap()`, `Metadata::parse(svg).unwrap()`, `.width.unwrap()`,
and the `panic!("Unsupported SVG-generated unit")` arm of the width match. -/
inductive PanicCause
  | invalidUtf8
  | metadataParse
  | missingWidth
  | unsupportedUnit
  deriving DecidableEq, Repr

/-- Outcome of a computation that may panic. -/
inductive Outcome (α : Type)
  | ok (a : α)
  | panicked (cause : PanicCause)
  deriving DecidableEq, Repr

/-- The external collaborators of `Tikz::replace`, passed as an explicit environment:
`render` is `Tikz::invoke_latex tex_code environment` (two subprocess invocations against
the scratch directory, fully outside this repository), `meta` is the UTF-8 decoding /
`svg_metadata` boundary of lines 118-119, and `hash2 environment tex_code` is the value of
Rust's `DefaultHasher` (SipHash-1-3) after hashing `environment` then `tex_code`
(lines 96-100). All three are external code; the theorems hold for every instantiation. -/
structure Ext where
  render : String → String → RenderResult
  meta : List Nat → MetaOutcome
  hash2 : String → String → Nat

/-- The session cache `images: FrozenMap<u64, Box<Result<Vec<u8>, String>>>`
(src/tikz.rs line 48), modelled as an append-only association list. -/
abbrev Cache := List (Nat × RenderResult)

/-- `self.images.get(&hash)` (src/tikz.rs line 102). -/
def cacheGet (c : Cache) (k : Nat) : Option RenderResult := List.lookup k c

/-- `self.images.insert(hash, image)` (src/tikz.rs line 107). In `replace` the insert is
only reached after `cacheGet` returned `none`, and `FrozenMap` keeps every earlier entry,
so insertion appends. -/
def cacheInsert (c : Cache) (k : Nat) (r : RenderResult) : Cache := c ++ [(k, r)]

/-! ## Extraction: the regex `REGEX_PATTERN_TIKZ` (src/tikz.rs line 15)

`(?P<environment>tikzpicture|tikzcd)\[(?P<block>\s*` fence `(?P<tex_code>(?s).*?)` fence
`\s*)\]` where fence is three backticks.  The scanner below implements the `regex`
crate's leftmost, first-preference semantics for this pattern: at each input position the
two environment literals are tried (they diverge at their fifth character, so at most one
applies), then `[`, then a greedy whitespace run, then the opening fence, then the
shortest `tex_code` whose following text is a fence, a greedy whitespace run and `]`. -/

/-- Code points of the Unicode `White_Space` class, which is what `\s` matches in the
`regex` crate. -/
def wsCodes : List Nat :=
  [0x09, 0x0A, 0x0B, 0x0C, 0x0D, 0x20, 0x85, 0xA0, 0x1680,
   0x2000, 0x2001, 0x2002, 0x2003, 0x2004, 0x2005, 0x2006, 0x2007, 0x2008, 0x2009, 0x200A,
   0x2028, 0x2029, 0x202F, 0x205F, 0x3000]

/-- The character class `\s` of the regex pattern. -/
def isWs (c : Char) : Bool := wsCodes.contains c.toNat

/-- The three-backtick fence required around `tex_code` by the pattern. -/
def fence : List Char := "```".toList

/-- One extracted diagram block: the three named capture groups `environment`, `block`
and `tex_code` of `REGEX_PATTERN_TIKZ` (used in src/tikz.rs lines 90-92). -/
structure Blk where
  environment : String
  block : String
  texCode : String
  deriving DecidableEq, Repr

def blkDefault : Blk := { environment := "", block := "", texCode := "" }

/-- Recognize the terminator of the lazy `tex_code` group: a closing fence followed by a
greedy `\s*` run and `]`.  Returns the whitespace run and the text after `]`. -/
def fenceEnd (t : List Char) : Option (List Char × List Char) :=
  if fence.isPrefixOf t then
    match (t.drop 3).dropWhile isWs with
    | c :: rest => if c = ']' then some ((t.drop 3).takeWhile isWs, rest) else none
    | [] => none
  else none

/-- Lazy scan for `tex_code`: the shortest prefix whose following text satisfies
`fenceEnd`.  Returns `(tex_code, trailing whitespace, text after the closing bracket)`. -/
def scanTex : List Char → Option (List Char × List Char × List Char)
  | [] => none
  | c :: cs =>
    match fenceEnd (c :: cs) with
    | some (ws, rest) => some ([], ws, rest)
    | none =>
      match scanTex cs with
      | some (tex, ws, rest) => some (c :: tex, ws, rest)
      | none => none

/-- The alternation `tikzpicture|tikzcd` tried at the head of `s`; the two literals
diverge at their fifth character, so at most one applies at a given position. -/
def envAt (s : List Char) : Option (String × List Char) :=
  if "tikzpicture".toList.isPrefixOf s then some ("tikzpicture", s.drop 11)
  else if "tikzcd".toList.isPrefixOf s then some ("tikzcd", s.drop 6)
  else none

/-- Consume the literal `[` following the environment keyword. -/
def afterBracket (s1 : List Char) : Option (List Char) :=
  match s1 with
  | c :: s2 => if c = '[' then some s2 else none
  | [] => none

/-- Try to match `REGEX_PATTERN_TIKZ` starting exactly at the head of `s`; on success
return the captured block and the text following the whole match. -/
def matchAt (s : List Char) : Option (Blk × List Char) :=
  (envAt s).bind fun et =>
    (afterBracket et.2).bind fun s2 =>
      let ws1 := s2.takeWhile isWs
      let s3 := s2.dropWhile isWs
      if fence.isPrefixOf s3 then
        (scanTex (s3.drop 3)).map fun tr =>
          ({ environment := et.1,
             block := String.mk (ws1 ++ fence ++ tr.1 ++ fence ++ tr.2.1),
             texCode := String.mk tr.1 }, tr.2.2)
      else none

/-- Fuelled leftmost scan for successive non-overlapping matches, as performed by both
`captures_iter` (line 89) and `replace_all` (line 136).  Returns the text before the
first match and, for every match, the block together with the text separating it from
the next match (or the end).  The fuel only bounds recursion; `scan` supplies enough of
it that the zero-fuel case is never reached (every match consumes at least one
character). -/
def scanF : Nat → List Char → List Char × List (Blk × List Char)
  | 0, s => (s, [])
  | _ + 1, [] => ([], [])
  | f + 1, c :: cs =>
    match matchAt (c :: cs) with
    | some (b, rest) =>
      let t := scanF f rest
      ([], (b, t.1) :: t.2)
    | none =>
      let t := scanF f cs
      (c :: t.1, t.2)

/-- The sequence of regex matches of `REGEX_PATTERN_TIKZ` over a document. -/
def scan (s : List Char) : List Char × List (Blk × List Char) := scanF s.length s

/-- The full text span a match replaces: `environment`, `[`, the `block` group, `]`. -/
def region (b : Blk) : List Char :=
  b.environment.toList ++ [ '[' ] ++ b.block.toList ++ [ ']' ]

/-- The blocks of a document, in match order. -/
def blocksOf (buffer : String) : List Blk := (scan buffer.toList).2.map Prod.fst

/-- The text pieces between consecutive matches (and after the last one). -/
def gapsOf (buffer : String) : List (List Char) := (scan buffer.toList).2.map Prod.snd

/-- The text before the first match. -/
def gap0Of (buffer : String) : List Char := (scan buffer.toList).1

/-! ## Placeholder construction (src/tikz.rs lines 94-132) -/

/-- `block.split('\n').count() - 1` (src/tikz.rs line 94): the number of newline
characters inside the captured text. -/
def countNl (s : String) : Nat := s.toList.count '\n'

/-- The fingerprint of a block (src/tikz.rs lines 96-100): the session hasher applied to
the environment capture and then the tex_code capture. -/
def hashOf (ext : Ext) (b : Blk) : Nat := ext.hash2 b.environment b.texCode

def digitChar : Nat → Char
  | 0 => '0' | 1 => '1' | 2 => '2' | 3 => '3' | 4 => '4'
  | 5 => '5' | 6 => '6' | 7 => '7' | 8 => '8' | _ => '9'

/-- Fuelled most-significant-first decimal rendering. -/
def natToDecA : Nat → Nat → List Char
  | 0, _ => []
  | f + 1, n =>
    if n < 10 then [digitChar n]
    else natToDecA f (n / 10) ++ [digitChar (n % 10)]

/-- Decimal rendering of a fingerprint, as Rust's `Display` for `u64` produces inside
`format!` (src/tikz.rs lines 114 and 130). -/
def natToDec (n : Nat) : List Char := natToDecA (n + 1) n

def PREFIX : String := "generated_tikz_"

def SUFFIX : String := ".svg"

def PREFIX_SIZE : Nat := PREFIX.length

def SUFFIX_SIZE : Nat := SUFFIX.length

/-- The filename embedded in a placeholder: prefix, decimal fingerprint, suffix. -/
def filenameOf (h : Nat) : String :=
  PREFIX ++ String.mk (natToDec h) ++ SUFFIX

/-- The failure placeholder `image("<prefix><hash><suffix>")` followed by the recorded
newlines (src/tikz.rs line 114). -/
def failPlaceholder (h : Nat) (n : Nat) : String :=
  "image(\"" ++ filenameOf h ++ "\"" ++ ")" ++ String.mk (List.replicate n '\n')

/-- The success placeholder `image("<prefix><hash><suffix>", width: <w>)` followed by the
recorded newlines (src/tikz.rs lines 129-132). -/
def okPlaceholder (h : Nat) (w : String) (n : Nat) : String :=
  "image(\"" ++ filenameOf h ++ "\"" ++ ", width: " ++ w ++ ")" ++
    String.mk (List.replicate n '\n')

/-- The width match of src/tikz.rs lines 119-127: the six supported units format as the
magnitude followed by their symbol; `none` models the
`panic!("Unsupported SVG-generated unit")` arm reached by every other unit. -/
def formatWidth (w : String) : SvgUnit → Option String
  | .Em => some (w ++ "em")
  | .Pt => some (w ++ "pt")
  | .Cm => some (w ++ "cm")
  | .Mm => some (w ++ "mm")
  | .In => some (w ++ "in")
  | .Percent => some (w ++ "%")
  | _ => none

/-- The placeholder built for one block from its (cached or fresh) render result
(src/tikz.rs lines 113-132): a failed render yields the width-less placeholder; a
successful render crosses the metadata boundary, each failure of which panics, and an
unsupported unit panics. -/
def blockPlaceholder (ext : Ext) (h : Nat) (res : RenderResult) (n : Nat) :
    Outcome String :=
  match res with
  | .error _ => .ok (failPlaceholder h n)
  | .ok bytes =>
    match ext.meta bytes with
    | .notUtf8 => .panicked .invalidUtf8
    | .parseErr => .panicked .metadataParse
    | .noWidth => .panicked .missingWidth
    | .width mag u =>
      match formatWidth mag u with
      | some w => .ok (okPlaceholder h w n)
      | none => .panicked .unsupportedUnit

/-- The first pass of `replace` (src/tikz.rs lines 89-133) over the matched blocks in
document order: resolve each block's fingerprint against the cache, invoking the renderer
and inserting exactly when the fingerprint is absent, and build the placeholder queue.
Besides the queue it returns the final cache and, as instrumentation, the list of
renderer invocations `(tex_code, environment)` performed, in order. -/
def renderBlocks (ext : Ext) :
    Cache → List (String × String) → List Blk →
      Outcome (List String × Cache × List (String × String))
  | cache, invs, [] => .ok ([], cache, invs)
  | cache, invs, b :: bs =>
    let h := hashOf ext b
    let step : RenderResult × Cache × List (String × String) :=
      match cacheGet cache h with
      | some r => (r, cache, invs)
      | none =>
        let r := ext.render b.texCode b.environment
        (r, cacheInsert cache h r, invs ++ [(b.texCode, b.environment)])
    match blockPlaceholder ext h step.1 (countNl b.block) with
    | .panicked cause => .panicked cause
    | .ok p =>
      match renderBlocks ext step.2.1 step.2.2 bs with
      | .panicked cause => .panicked cause
      | .ok (ps, c2, i2) => .ok (p :: ps, c2, i2)

/-- Interleave the placeholder queue with the text pieces following each match, as
`replace_all` does when popping the queue (src/tikz.rs lines 135-137). -/
def stitch : List String → List (List Char) → List Char
  | p :: ps, g :: gs => p.toList ++ g ++ stitch ps gs
  | _, _ => []

/-- `Tikz::replace` (src/tikz.rs lines 82-138).  The cache is threaded explicitly; the
result additionally carries the final cache and the renderer invocations performed. -/
def replace (ext : Ext) (cache : Cache) (buffer : String) :
    Outcome (String × Cache × List (String × String)) :=
  let sc := scan buffer.toList
  match renderBlocks ext cache [] (sc.2.map Prod.fst) with
  | .panicked cause => .panicked cause
  | .ok (ps, c2, i2) => .ok (String.mk (sc.1 ++ stitch ps (sc.2.map Prod.snd)), c2, i2)

/-- A placeholder "carries" fingerprint `h` when it opens with the embed directive for
the filename encoding `h`. -/
def carriesFingerprint (p : String) (h : Nat) : Bool :=
  ("image(\"" ++ filenameOf h ++ "\"").toList.isPrefixOf p.toList

/-- An embed directive: text opening with `image("` and the fixed filename prefix. -/
def isEmbedDirective (p : String) : Bool :=
  ("image(\"" ++ PREFIX).toList.isPrefixOf p.toList

/-! ## The resolver `Tikz::is_filename` (src/tikz.rs lines 182-188) -/

/-- Accumulating decimal parse over ASCII digits; `none` on the first non-digit.
Together with the emptiness and range checks in `parseU64` this is the digit loop of
Rust's `u64::from_str`. -/
def parseDigitsAux : Nat → List Char → Option Nat
  | acc, [] => some acc
  | acc, c :: cs =>
    if c.isDigit then parseDigitsAux (acc * 10 + (c.toNat - 48)) cs else none

/-- `name[..].parse::<u64>().ok()`: Rust's `u64` decimal syntax accepts an optional
leading `+` followed by one or more ASCII digits, and fails (PosOverflow) when the value
does not fit in 64 bits. -/
def parseU64 (l : List Char) : Option Nat :=
  let ds := if l.head? = some '+' then l.tail else l
  if ds.isEmpty then none
  else
    match parseDigitsAux 0 ds with
    | none => none
    | some v => if v < 2 ^ 64 then some v else none

/-- `Tikz::is_filename` (src/tikz.rs lines 182-188): strip the fixed prefix and suffix
and parse the remainder as a `u64`.  The Rust byte slice `name[PREFIX_SIZE..len-SUFFIX_SIZE]`
is `drop`/`take` here; the affix guards force `len ≥ PREFIX_SIZE + SUFFIX_SIZE` (proved
below), so the Rust slice is always in bounds, and both affixes being ASCII makes its
endpoints character boundaries. -/
def is_filename (name : String) : Option Nat :=
  let l := name.toList
  if PREFIX.toList.isPrefixOf l && SUFFIX.toList.isSuffixOf l then
    parseU64 ((l.drop PREFIX_SIZE).take (l.length - SUFFIX_SIZE - PREFIX_SIZE))
  else none

/-- The value of a digit string, most significant digit first: the specification-side
meaning of "decimal number". -/
def digitsVal (l : List Char) : Nat := l.foldl (fun a c => a * 10 + (c.toNat - 48)) 0

/-! ## Concrete environments used by the witnesses -/

/-- A session whose renderer always succeeds and whose images declare width `3cm`. -/
def extOk : Ext :=
  { render := fun _ _ => .ok [0],
    meta := fun _ => .width "3" .Cm,
    hash2 := fun e t => e.length * 100 + t.length }

/-- A session whose renderer always fails. -/
def extErr : Ext :=
  { render := fun _ _ => .error "boom",
    meta := fun _ => .noWidth,
    hash2 := fun e t => e.length + t.length }

/-- A session whose images declare the unsupported unit `px`. -/
def extPx : Ext :=
  { render := fun _ _ => .ok [],
    meta := fun _ => .width "7" .Px,
    hash2 := fun _ _ => 0 }

/-! ## Helper lemmas: lists, strings, lookups -/

theorem isPrefixOf_decomp :
    ∀ (l s : List Char), l.isPrefixOf s = true → s = l ++ s.drop l.length := by
  intro l
  induction l with
  | nil => intro s _; simp
  | cons c cs ih =>
    intro s h
    cases s with
    | nil => simp [List.isPrefixOf] at h
    | cons d ds =>
      simp only [List.isPrefixOf, Bool.and_eq_true, beq_iff_eq] at h
      obtain ⟨h1, h2⟩ := h
      subst h1
      simpa using ih ds h2

theorem isPrefixOf_append_self :
    ∀ (l t : List Char), l.isPrefixOf (l ++ t) = true := by
  intro l t
  induction l with
  | nil => simp [List.isPrefixOf]
  | cons c cs ih => simp [List.isPrefixOf, ih]

theorem isSuffixOf_exists {l s : List Char} (h : l.isSuffixOf s = true) :
    ∃ t, s = t ++ l := by
  unfold List.isSuffixOf at h
  have h2 := isPrefixOf_decomp _ _ h
  refine ⟨(s.reverse.drop l.reverse.length).reverse, ?_⟩
  have : s.reverse.reverse = (l.reverse ++ s.reverse.drop l.reverse.length).reverse := by
    rw [← h2]
  simpa using this

theorem isSuffixOf_append_self (l t : List Char) : l.isSuffixOf (t ++ l) = true := by
  unfold List.isSuffixOf
  rw [List.reverse_append]
  exact isPrefixOf_append_self _ _

theorem cacheGet_append_some {c : Cache} (t : Cache) {k : Nat} {r : RenderResult}
    (h : cacheGet c k = some r) : cacheGet (c ++ t) k = some r := by
  induction c with
  | nil => simp [cacheGet, List.lookup] at h
  | cons e es ih =>
    obtain ⟨k1, r1⟩ := e
    simp only [cacheGet, List.lookup, List.cons_append] at h ⊢
    cases hb : (k == k1) with
    | true => rw [hb] at h; simpa [hb] using h
    | false => rw [hb] at h; simpa [hb] using ih h

theorem cacheGet_append_none {c t : Cache} {k : Nat}
    (h : cacheGet (c ++ t) k = none) : cacheGet c k = none := by
  cases hc : cacheGet c k with
  | none => rfl
  | some r => rw [cacheGet_append_some t hc] at h; cases h

theorem cacheGet_append_right {c : Cache} (t : Cache) {k : Nat}
    (h : cacheGet c k = none) : cacheGet (c ++ t) k = cacheGet t k := by
  induction c with
  | nil => simp
  | cons e es ih =>
    obtain ⟨k1, r1⟩ := e
    simp only [cacheGet, List.lookup, List.cons_append] at h ⊢
    cases hb : (k == k1) with
    | true => rw [hb] at h; cases h
    | false => rw [hb] at h; exact ih h

theorem cacheGet_eq_none_iff (c : Cache) (k : Nat) :
    cacheGet c k = none ↔ k ∉ c.map Prod.fst := by
  induction c with
  | nil => simp [cacheGet, List.lookup]
  | cons e es ih =>
    obtain ⟨k1, r1⟩ := e
    simp only [cacheGet, List.lookup, List.map_cons, List.mem_cons] at ih ⊢
    cases hb : (k == k1) with
    | true =>
      have : k = k1 := by simpa using hb
      simp [this]
    | false =>
      have : ¬ k = k1 := by simpa using hb
      simp [this, ih]

theorem str_toList_append (a b : String) : (a ++ b).toList = a.toList ++ b.toList := by
  cases a; cases b; rfl

theorem str_toList_mk (l : List Char) : (String.mk l).toList = l := rfl

theorem str_mk_toList (s : String) : String.mk s.toList = s := by
  cases s; rfl

/-! ## Extraction soundness: every match reconstructs the text it was parsed from -/

theorem fenceEnd_sound {t ws rest : List Char} (h : fenceEnd t = some (ws, rest)) :
    t = fence ++ ws ++ ']' :: rest := by
  unfold fenceEnd at h
  split at h
  case isTrue hp =>
    split at h
    case _ c rest' heq =>
      split at h
      case isTrue hc =>
        simp only [Option.some.injEq, Prod.mk.injEq] at h
        obtain ⟨h1, h2⟩ := h
        subst hc; subst h2
        have hfl : fence.length = 3 := rfl
        have hd := isPrefixOf_decomp _ _ hp
        rw [hfl] at hd
        have hsplit := List.takeWhile_append_dropWhile (p := isWs) (l := t.drop 3)
        rw [h1, heq] at hsplit
        rw [hd]
        rw [← hsplit]
        simp [List.append_assoc]
      case isFalse => cases h
    case _ => cases h
  case isFalse => cases h

theorem scanTex_sound :
    ∀ (u tex ws rest : List Char), scanTex u = some (tex, ws, rest) →
      u = tex ++ fence ++ ws ++ ']' :: rest := by
  intro u
  induction u with
  | nil => intro tex ws rest h; simp [scanTex] at h
  | cons c cs ih =>
    intro tex ws rest h
    simp only [scanTex] at h
    split at h
    case _ ws' rest' heq =>
      simp only [Option.some.injEq, Prod.mk.injEq] at h
      obtain ⟨h1, h2, h3⟩ := h
      subst h1; subst h2; subst h3
      simpa using fenceEnd_sound heq
    case _ heq =>
      split at h
      case _ tex' ws' rest' heq2 =>
        simp only [Option.some.injEq, Prod.mk.injEq] at h
        obtain ⟨h1, h2, h3⟩ := h
        subst h1; subst h2; subst h3
        have := ih tex' ws' rest' heq2
        simp [this, List.append_assoc]
      case _ => cases h

theorem envAt_sound {s : List Char} {e : String} {s1 : List Char}
    (h : envAt s = some (e, s1)) :
    s = e.toList ++ s1 ∧ (e = "tikzpicture" ∨ e = "tikzcd") := by
  unfold envAt at h
  split at h
  case isTrue hp =>
    simp only [Option.some.injEq, Prod.mk.injEq] at h
    obtain ⟨h1, h2⟩ := h
    subst h1; subst h2
    refine ⟨?_, Or.inl rfl⟩
    have hl : ("tikzpicture".toList).length = 11 := rfl
    have := isPrefixOf_decomp _ _ hp
    rw [hl] at this
    exact this
  case isFalse =>
    split at h
    case isTrue hp =>
      simp only [Option.some.injEq, Prod.mk.injEq] at h
      obtain ⟨h1, h2⟩ := h
      subst h1; subst h2
      refine ⟨?_, Or.inr rfl⟩
      have hl : ("tikzcd".toList).length = 6 := rfl
      have := isPrefixOf_decomp _ _ hp
      rw [hl] at this
      exact this
    case isFalse => cases h

theorem afterBracket_sound {s1 s2 : List Char} (h : afterBracket s1 = some s2) :
    s1 = '[' :: s2 := by
  unfold afterBracket at h
  split at h
  case _ c s2' =>
    split at h
    case isTrue hc =>
      simp only [Option.some.injEq] at h
      subst hc; subst h
      rfl
    case isFalse => cases h
  case _ => cases h

theorem matchAt_sound {s : List Char} {b : Blk} {rest : List Char}
    (h : matchAt s = some (b, rest)) :
    s = region b ++ rest ∧ (b.environment = "tikzpicture" ∨ b.environment = "tikzcd") := by
  unfold matchAt at h
  simp only [Option.bind_eq_some] at h
  obtain ⟨et, henv, h⟩ := h
  obtain ⟨e, s1⟩ := et
  obtain ⟨s2, hbr, h⟩ := h
  split at h
  case isTrue hp =>
    simp only [Option.map_eq_some'] at h
    obtain ⟨tr, hscan, h⟩ := h
    obtain ⟨tex, ws2, rest'⟩ := tr
    simp only [Prod.mk.injEq] at h
    obtain ⟨hb, hr⟩ := h
    subst hb; subst hr
    obtain ⟨he, hor⟩ := envAt_sound henv
    have hb2 : s1 = '[' :: s2 := afterBracket_sound hbr
    have hscan2 := scanTex_sound _ _ _ _ hscan
    have hfl : fence.length = 3 := rfl
    have hdw := isPrefixOf_decomp _ _ hp
    rw [hfl] at hdw
    refine ⟨?_, hor⟩
    have hs2 : s2 = s2.takeWhile isWs ++
        (fence ++ (tex ++ fence ++ ws2 ++ (']' :: rest'))) := by
      have h0 := List.takeWhile_append_dropWhile (p := isWs) (l := s2)
      calc s2 = s2.takeWhile isWs ++ s2.dropWhile isWs := h0.symm
        _ = _ := by rw [hdw, hscan2]
    rw [he, hb2]
    conv_lhs => rw [hs2]
    simp [region, str_toList_mk, List.append_assoc]
  case isFalse => cases h

theorem scanF_decomp :
    ∀ (f : Nat) (s : List Char),
      s = (scanF f s).1 ++ ((scanF f s).2.flatMap fun mg => region mg.1 ++ mg.2) := by
  intro f
  induction f with
  | zero => intro s; simp [scanF]
  | succ f ih =>
    intro s
    cases s with
    | nil => simp [scanF]
    | cons c cs =>
      cases hm : matchAt (c :: cs) with
      | none =>
        simp only [scanF, hm, List.cons_append]
        exact congrArg (c :: ·) (ih cs)
      | some br =>
        obtain ⟨b, rest⟩ := br
        simp only [scanF, hm]
        have h1 := (matchAt_sound hm).1
        conv_lhs => rw [h1]
        conv_lhs => rw [ih rest]
        simp [List.append_assoc]

theorem scanF_env :
    ∀ (f : Nat) (s : List Char) (mg : Blk × List Char), mg ∈ (scanF f s).2 →
      mg.1.environment = "tikzpicture" ∨ mg.1.environment = "tikzcd" := by
  intro f
  induction f with
  | zero => intro s mg h; simp [scanF] at h
  | succ f ih =>
    intro s mg h
    cases s with
    | nil => simp [scanF] at h
    | cons c cs =>
      cases hm : matchAt (c :: cs) with
      | none =>
        simp only [scanF, hm] at h
        exact ih cs mg h
      | some br =>
        obtain ⟨b, rest⟩ := br
        simp only [scanF, hm, List.mem_cons] at h
        cases h with
        | inl h => rw [h]; exact (matchAt_sound hm).2
        | inr h => exact ih rest mg h

/-! ## Decimal rendering and parsing -/

theorem digitChar_isDigit (n : Nat) : (digitChar n).isDigit = true := by
  unfold digitChar
  split <;> decide

theorem digitChar_toNat (n : Nat) (h : n < 10) : (digitChar n).toNat = 48 + n := by
  interval_cases n <;> decide

theorem parseDigitsAux_append (acc : Nat) (xs ys : List Char) :
    parseDigitsAux acc (xs ++ ys) =
      match parseDigitsAux acc xs with
      | some v => parseDigitsAux v ys
      | none => none := by
  induction xs generalizing acc with
  | nil => simp [parseDigitsAux]
  | cons c cs ih =>
    simp only [List.cons_append, parseDigitsAux]
    by_cases hd : c.isDigit = true
    · rw [if_pos hd, if_pos hd]
      exact ih _
    · rw [if_neg hd, if_neg hd]

theorem parseDigitsAux_sound :
    ∀ (l : List Char) (acc v : Nat), parseDigitsAux acc l = some v →
      (∀ c ∈ l, c.isDigit = true) ∧
        v = l.foldl (fun a c => a * 10 + (c.toNat - 48)) acc := by
  intro l
  induction l with
  | nil =>
    intro acc v h
    simp only [parseDigitsAux, Option.some.injEq] at h
    subst h
    simp
  | cons c cs ih =>
    intro acc v h
    simp only [parseDigitsAux] at h
    by_cases hd : c.isDigit = true
    · rw [if_pos hd] at h
      obtain ⟨hall, hv⟩ := ih _ _ h
      refine ⟨?_, ?_⟩
      · intro d hdm
        rcases List.mem_cons.mp hdm with h1 | h1
        · rw [h1]; exact hd
        · exact hall d h1
      · simpa [List.foldl_cons] using hv
    · rw [if_neg hd] at h
      cases h

theorem parseDigitsAux_complete :
    ∀ (l : List Char) (acc : Nat), (∀ c ∈ l, c.isDigit = true) →
      parseDigitsAux acc l =
        some (l.foldl (fun a c => a * 10 + (c.toNat - 48)) acc) := by
  intro l
  induction l with
  | nil => intro acc _; simp [parseDigitsAux]
  | cons c cs ih =>
    intro acc h
    have hc : c.isDigit = true := h c (by simp)
    simp only [parseDigitsAux, List.foldl_cons]
    rw [if_pos hc]
    exact ih _ (fun d hd => h d (by simp [hd]))

theorem natToDecA_parse :
    ∀ (f n acc : Nat), n < f →
      parseDigitsAux acc (natToDecA f n) =
        some (acc * 10 ^ (natToDecA f n).length + n) := by
  intro f
  induction f with
  | zero => intro n acc h; omega
  | succ f ih =>
    intro n acc h
    by_cases h10 : n < 10
    · simp only [natToDecA, if_pos h10]
      have hd := digitChar_isDigit n
      have ht := digitChar_toNat n h10
      simp only [parseDigitsAux]
      rw [if_pos hd, ht]
      simp only [parseDigitsAux, List.length_cons, List.length_nil]
      refine congrArg some ?_
      simp [pow_succ]
    · simp only [natToDecA, if_neg h10]
      have hrec : n / 10 < f := by
        have hlt : n / 10 < n := Nat.div_lt_self (by omega) (by omega)
        omega
      rw [parseDigitsAux_append, ih (n / 10) acc hrec]
      have hd := digitChar_isDigit (n % 10)
      have ht := digitChar_toNat (n % 10) (Nat.mod_lt n (by omega))
      simp only [parseDigitsAux]
      rw [if_pos hd, ht]
      simp only [parseDigitsAux, List.length_append, List.length_cons, List.length_nil]
      refine congrArg some ?_
      generalize (natToDecA f (n / 10)).length = L
      have h1 : (10 : Nat) ^ (L + (0 + 1)) = 10 ^ L * 10 := by ring
      rw [h1, ← mul_assoc]
      generalize acc * 10 ^ L = A
      omega

theorem natToDecA_ne_nil (f n : Nat) (h : n < f) : natToDecA f n ≠ [] := by
  cases f with
  | zero => omega
  | succ f =>
    by_cases h10 : n < 10
    · simp [natToDecA, if_pos h10]
    · simp [natToDecA, if_neg h10]

theorem natToDecA_digits :
    ∀ (f n : Nat) (c : Char), c ∈ natToDecA f n → c.isDigit = true := by
  intro f
  induction f with
  | zero => intro n c h; simp [natToDecA] at h
  | succ f ih =>
    intro n c h
    by_cases h10 : n < 10
    · simp only [natToDecA, if_pos h10, List.mem_singleton] at h
      rw [h]; exact digitChar_isDigit n
    · simp only [natToDecA, if_neg h10, List.mem_append, List.mem_singleton] at h
      cases h with
      | inl h => exact ih _ c h
      | inr h => rw [h]; exact digitChar_isDigit _

theorem natToDec_digits (n : Nat) : ∀ c ∈ natToDec n, c.isDigit = true :=
  fun c hc => natToDecA_digits _ _ c hc

theorem natToDec_ne_nil (n : Nat) : natToDec n ≠ [] :=
  natToDecA_ne_nil _ _ (by omega)

theorem parse_natToDec (n : Nat) : parseDigitsAux 0 (natToDec n) = some n := by
  have := natToDecA_parse (n + 1) n 0 (by omega)
  simpa using this

theorem natToDec_head_ne_plus (n : Nat) : ¬ (natToDec n).head? = some '+' := by
  cases h : natToDec n with
  | nil => simp
  | cons c cs =>
    have hc : c.isDigit = true := natToDec_digits n c (by rw [h]; simp)
    simp only [List.head?, Option.some.injEq]
    intro hEq
    rw [hEq] at hc
    exact absurd hc (by decide)

theorem natToDec_count (n : Nat) : (natToDec n).count '\n' = 0 := by
  rw [List.count_eq_zero]
  intro hmem
  have := natToDec_digits n '\n' hmem
  exact absurd this (by decide)

theorem parseU64_natToDec (n : Nat) (h : n < 2 ^ 64) : parseU64 (natToDec n) = some n := by
  unfold parseU64
  rw [if_neg (natToDec_head_ne_plus n)]
  have hne : ¬ (natToDec n).isEmpty = true := by
    intro hE
    exact natToDec_ne_nil n (List.isEmpty_iff.mp hE)
  rw [if_neg hne, parse_natToDec n]
  show (if n < 2 ^ 64 then some n else none) = some n
  rw [if_pos h]

/-! ## Placeholder shapes -/

theorem isPrefixOf_of_eq_append {l s t : List Char} (h : s = l ++ t) :
    l.isPrefixOf s = true := by
  rw [h]; exact isPrefixOf_append_self _ _

theorem carries_failPlaceholder (h n : Nat) :
    carriesFingerprint (failPlaceholder h n) h = true := by
  unfold carriesFingerprint failPlaceholder
  apply isPrefixOf_of_eq_append
    (t := ")".toList ++ List.replicate n '\n')
  simp [str_toList_append, str_toList_mk, List.append_assoc]

theorem carries_okPlaceholder (h n : Nat) (w : String) :
    carriesFingerprint (okPlaceholder h w n) h = true := by
  unfold carriesFingerprint okPlaceholder
  apply isPrefixOf_of_eq_append
    (t := ", width: ".toList ++ (w.toList ++ (")".toList ++ List.replicate n '\n')))
  simp [str_toList_append, str_toList_mk, List.append_assoc]

theorem formatWidth_none_iff (mag : String) (u : SvgUnit) :
    formatWidth mag u = none ↔ (u = .Ex ∨ u = .Px ∨ u = .Pc) := by
  cases u <;> simp [formatWidth]

theorem formatWidth_eq (mag : String) (u : SvgUnit) (w : String)
    (h : formatWidth mag u = some w) :
    ∃ suf, suf ∈ (["em", "pt", "cm", "mm", "in", "%"] : List String) ∧
      w = mag ++ suf := by
  cases u <;> simp only [formatWidth, Option.some.injEq] at h
  case Em => exact ⟨"em", by simp, h.symm⟩
  case Pt => exact ⟨"pt", by simp, h.symm⟩
  case Cm => exact ⟨"cm", by simp, h.symm⟩
  case Mm => exact ⟨"mm", by simp, h.symm⟩
  case In => exact ⟨"in", by simp, h.symm⟩
  case Percent => exact ⟨"%", by simp, h.symm⟩
  all_goals cases h

theorem blockPlaceholder_shape {ext : Ext} {h : Nat} {r : RenderResult} {n : Nat}
    {p : String} (hb : blockPlaceholder ext h r n = .ok p) :
    (∃ msg, r = .error msg ∧ p = failPlaceholder h n) ∨
    (∃ bytes mag u suf, r = .ok bytes ∧ ext.meta bytes = .width mag u ∧
      suf ∈ (["em", "pt", "cm", "mm", "in", "%"] : List String) ∧
      p = okPlaceholder h (mag ++ suf) n) := by
  cases r with
  | error msg =>
    left
    refine ⟨msg, rfl, ?_⟩
    simp only [blockPlaceholder, Outcome.ok.injEq] at hb
    exact hb.symm
  | ok bytes =>
    right
    cases hm : ext.meta bytes with
    | notUtf8 => simp [blockPlaceholder, hm] at hb
    | parseErr => simp [blockPlaceholder, hm] at hb
    | noWidth => simp [blockPlaceholder, hm] at hb
    | width mag u =>
      cases hw : formatWidth mag u with
      | none => simp [blockPlaceholder, hm, hw] at hb
      | some w =>
        simp only [blockPlaceholder, hm, hw, Outcome.ok.injEq] at hb
        obtain ⟨suf, hsuf, hws⟩ := formatWidth_eq mag u w hw
        exact ⟨bytes, mag, u, suf, rfl, hm, hsuf, by rw [← hb, hws]⟩

theorem count_failPlaceholder (h n : Nat) :
    (failPlaceholder h n).toList.count '\n' = n := by
  have c4 : List.count '\n' ( PREFIX.data) = 0 := by decide
  have c5 : List.count '\n' ( SUFFIX.data) = 0 := by decide
  simp [failPlaceholder, filenameOf, str_toList_append, str_toList_mk, List.count_append,
    c4, c5, natToDec_count]

theorem count_okPlaceholder (h n : Nat) (w : String) :
    (okPlaceholder h w n).toList.count '\n' = w.toList.count '\n' + n := by
  have c4 : List.count '\n' ( PREFIX.data) = 0 := by decide
  have c5 : List.count '\n' ( SUFFIX.data) = 0 := by decide
  simp [okPlaceholder, filenameOf, str_toList_append, str_toList_mk, List.count_append,
    c4, c5, natToDec_count]

theorem isEmbedDirective_failPlaceholder (h n : Nat) :
    isEmbedDirective (failPlaceholder h n) = true := by
  unfold isEmbedDirective failPlaceholder filenameOf
  apply isPrefixOf_of_eq_append
    (t := natToDec h ++ ( SUFFIX.toList ++
      ("\"".toList ++ ((")").toList ++ List.replicate n '\n'))))
  simp [str_toList_append, str_toList_mk, List.append_assoc]

theorem isEmbedDirective_okPlaceholder (h n : Nat) (w : String) :
    isEmbedDirective (okPlaceholder h w n) = true := by
  unfold isEmbedDirective okPlaceholder filenameOf
  apply isPrefixOf_of_eq_append
    (t := natToDec h ++ ( SUFFIX.toList ++ ("\"".toList ++ ((", width: ").toList ++
      (w.toList ++ ((")").toList ++ List.replicate n '\n'))))))
  simp [str_toList_append, str_toList_mk, List.append_assoc]

/-! ## The memoizing pass over the matched blocks -/

theorem renderBlocks_sound (ext : Ext) :
    ∀ (bs : List Blk) (cache : Cache) (invs0 : List (String × String))
      (ps : List String) (c2 : Cache) (invs2 : List (String × String)),
      renderBlocks ext cache invs0 bs = .ok (ps, c2, invs2) →
      ∃ nw added,
        invs2 = invs0 ++ nw ∧
        c2 = cache ++ added ∧
        added.map Prod.fst = nw.map (fun q => ext.hash2 q.2 q.1) ∧
        (nw.map (fun q => ext.hash2 q.2 q.1)).Nodup ∧
        (∀ q ∈ nw, cacheGet cache (ext.hash2 q.2 q.1) = none) ∧
        (∀ q ∈ nw, cacheGet c2 (ext.hash2 q.2 q.1) = some (ext.render q.1 q.2)) ∧
        ps.length = bs.length ∧
        (∀ i, i < bs.length →
          ∃ r, cacheGet c2 (hashOf ext (bs.getD i blkDefault)) = some r ∧
            blockPlaceholder ext (hashOf ext (bs.getD i blkDefault)) r
              (countNl (bs.getD i blkDefault).block) = .ok (ps.getD i "")) := by
  intro bs
  induction bs with
  | nil =>
    intro cache invs0 ps c2 invs2 hpr
    simp only [renderBlocks, Outcome.ok.injEq, Prod.mk.injEq] at hpr
    obtain ⟨h1, h2, h3⟩ := hpr
    subst h1; subst h2; subst h3
    refine ⟨[], [], by simp, by simp, rfl, by simp, by simp, by simp, rfl, ?_⟩
    intro i hi
    simp at hi
  | cons b bs ih =>
    intro cache invs0 ps c2 invs2 hpr
    simp only [renderBlocks] at hpr
    cases hc : cacheGet cache (hashOf ext b) with
    | some r =>
      simp only [hc] at hpr
      cases hb : blockPlaceholder ext (hashOf ext b) r (countNl b.block) with
      | panicked cause => simp [hb] at hpr
      | ok p =>
        simp only [hb] at hpr
        cases hr : renderBlocks ext cache invs0 bs with
        | panicked cause => simp [hr] at hpr
        | ok trip =>
          obtain ⟨ps', c2', invs2'⟩ := trip
          simp only [hr, Outcome.ok.injEq, Prod.mk.injEq] at hpr
          obtain ⟨h1, h2, h3⟩ := hpr
          subst h1; subst h2; subst h3
          obtain ⟨nw, added, j1, j2, j3, j4, j5, j6, j7, j8⟩ :=
            ih cache invs0 ps' c2' invs2' hr
          refine ⟨nw, added, j1, j2, j3, j4, j5, j6, by simp [j7], ?_⟩
          intro i hi
          cases i with
          | zero =>
            refine ⟨r, ?_, ?_⟩
            · rw [j2]; exact cacheGet_append_some added hc
            · simpa using hb
          | succ i =>
            have hi' : i < bs.length := by simpa using hi
            simpa using j8 i hi'
    | none =>
      simp only [hc] at hpr
      cases hb : blockPlaceholder ext (hashOf ext b)
          (ext.render b.texCode b.environment) (countNl b.block) with
      | panicked cause => simp [hb] at hpr
      | ok p =>
        simp only [hb] at hpr
        cases hr : renderBlocks ext
            (cacheInsert cache (hashOf ext b) (ext.render b.texCode b.environment))
            (invs0 ++ [(b.texCode, b.environment)]) bs with
        | panicked cause => simp [hr] at hpr
        | ok trip =>
          obtain ⟨ps', c2', invs2'⟩ := trip
          simp only [hr, Outcome.ok.injEq, Prod.mk.injEq] at hpr
          obtain ⟨h1, h2, h3⟩ := hpr
          subst h1; subst h2; subst h3
          obtain ⟨nw, added, j1, j2, j3, j4, j5, j6, j7, j8⟩ :=
            ih _ _ ps' c2' invs2' hr
          have hsing : cacheGet
              (cacheInsert cache (hashOf ext b) (ext.render b.texCode b.environment))
              (hashOf ext b) = some (ext.render b.texCode b.environment) := by
            unfold cacheInsert
            rw [cacheGet_append_right _ hc]
            simp [cacheGet, List.lookup]
          refine ⟨(b.texCode, b.environment) :: nw,
            (hashOf ext b, ext.render b.texCode b.environment) :: added,
            ?_, ?_, ?_, ?_, ?_, ?_, ?_, ?_⟩
          · rw [j1]; simp
          · rw [j2]; simp [cacheInsert]
          · simp only [List.map_cons, j3]
            rfl
          · simp only [List.map_cons]
            rw [List.nodup_cons]
            refine ⟨?_, j4⟩
            intro hmem
            obtain ⟨q', hq', hqeq⟩ := List.mem_map.mp hmem
            have hqeq' : ext.hash2 q'.2 q'.1 = ext.hash2 b.environment b.texCode := hqeq
            have h5 : cacheGet
                (cache ++ [(hashOf ext b, ext.render b.texCode b.environment)])
                (ext.hash2 q'.2 q'.1) = none := j5 q' hq'
            rw [hqeq'] at h5
            have h6 : cacheGet
                (cache ++ [(hashOf ext b, ext.render b.texCode b.environment)])
                (hashOf ext b) = none := h5
            have h7 := hsing
            unfold cacheInsert at h7
            rw [h6] at h7
            cases h7
          · intro q hq
            rcases List.mem_cons.mp hq with h1 | h1
            · rw [h1]; exact hc
            · have h5 : cacheGet
                  (cache ++ [(hashOf ext b, ext.render b.texCode b.environment)])
                  (ext.hash2 q.2 q.1) = none := j5 q h1
              exact cacheGet_append_none h5
          · intro q hq
            rcases List.mem_cons.mp hq with h1 | h1
            · rw [h1]
              rw [j2]
              exact cacheGet_append_some added hsing
            · exact j6 q h1
          · simp [j7]
          · intro i hi
            cases i with
            | zero =>
              refine ⟨ext.render b.texCode b.environment, ?_, ?_⟩
              · rw [j2]
                exact cacheGet_append_some added hsing
              · simpa using hb
            | succ i =>
              have hi' : i < bs.length := by simpa using hi
              simpa using j8 i hi'

/-! ## Document-level helpers -/

theorem scan_decomp (s : List Char) :
    s = (scan s).1 ++ ((scan s).2.flatMap fun mg => region mg.1 ++ mg.2) :=
  scanF_decomp _ _

theorem scan_env {s : List Char} {mg : Blk × List Char} (h : mg ∈ (scan s).2) :
    mg.1.environment = "tikzpicture" ∨ mg.1.environment = "tikzcd" :=
  scanF_env _ _ _ h

theorem count_region {b : Blk}
    (he : b.environment = "tikzpicture" ∨ b.environment = "tikzcd") :
    (region b).count '\n' = countNl b.block := by
  have h0 : List.count '\n' b.environment.data = 0 := by
    rcases he with h | h <;> rw [h] <;> decide
  have h1 : List.count '\n' [ '[' ] = 0 := by decide
  have h2 : List.count '\n' [ ']' ] = 0 := by decide
  simp [region, List.count_append, h0, h1, h2, countNl]

theorem count_blockPlaceholder {ext : Ext} {h n : Nat} {r : RenderResult} {p : String}
    (hmeta : ∀ b mag u, ext.meta b = .width mag u → mag.toList.count '\n' = 0)
    (hb : blockPlaceholder ext h r n = .ok p) :
    p.toList.count '\n' = n := by
  rcases blockPlaceholder_shape hb with ⟨msg, _, hp⟩ | ⟨bytes, mag, u, suf, _, hm, hsuf, hp⟩
  · rw [hp]; exact count_failPlaceholder h n
  · rw [hp, count_okPlaceholder]
    have h1 : mag.toList.count '\n' = 0 := hmeta bytes mag u hm
    have h2 : suf.toList.count '\n' = 0 := by
      simp only [List.mem_cons, List.not_mem_nil, or_false] at hsuf
      rcases hsuf with h | h | h | h | h | h <;> subst h <;> decide
    rw [str_toList_append, List.count_append, h1, h2]
    omega

theorem count_stitch_eq :
    ∀ (ms : List (Blk × List Char)) (ps : List String),
      ps.length = ms.length →
      (∀ i, i < ms.length → (ps.getD i "").toList.count '\n'
          = (region (ms.getD i (blkDefault, [])).1).count '\n') →
      (stitch ps (ms.map Prod.snd)).count '\n'
        = ((ms.flatMap fun mg => region mg.1 ++ mg.2)).count '\n' := by
  intro ms
  induction ms with
  | nil =>
    intro ps hlen _
    cases ps with
    | nil => simp [stitch]
    | cons p ps' => simp at hlen
  | cons mg ms ih =>
    intro ps hlen hcnt
    cases ps with
    | nil => simp at hlen
    | cons p ps' =>
      have h0 := hcnt 0 (by simp)
      simp only [List.getD_cons_zero] at h0
      have ht := ih ps' (by simpa using hlen) (fun i hi => by
        have := hcnt (i + 1) (by simpa using hi)
        simpa using this)
      simp only [List.map_cons, stitch, List.flatMap_cons, List.count_append]
      omega

theorem getD_map_fst (ms : List (Blk × List Char)) (i : Nat) (hi : i < ms.length) :
    (ms.map Prod.fst).getD i blkDefault = (ms.getD i (blkDefault, [])).1 := by
  rw [List.getD_eq_getElem _ _ (by simpa using hi), List.getD_eq_getElem _ _ hi,
    List.getElem_map]

theorem getD_mem (ms : List (Blk × List Char)) (i : Nat) (hi : i < ms.length) :
    ms.getD i (blkDefault, []) ∈ ms := by
  rw [List.getD_eq_getElem _ _ hi]
  exact List.getElem_mem _

/-! ## Claim theorems -/

/-- C1: within one `replace` pass the renderer is invoked at most once per fingerprint:
the performed invocations have pairwise distinct fingerprints, each was only performed
because its fingerprint was absent from the cache at the start of the pass, the computed
result is stored under the fingerprint in the final cache, and the placeholder emitted
for every block opens with the embed directive for that block's fingerprint — so two
blocks with byte-identical environment and source text (hence equal fingerprints, the
fingerprint being a function of exactly those two captures) render at most once and
carry the identical fingerprint. -/
theorem claim_C1 (ext : Ext) (cache : Cache) (buffer : String)
    (ps : List String) (c2 : Cache) (invs : List (String × String))
    (hpr : renderBlocks ext cache [] (blocksOf buffer) = .ok (ps, c2, invs)) :
    (invs.map fun q => ext.hash2 q.2 q.1).Nodup ∧
    (∀ q ∈ invs, cacheGet cache (ext.hash2 q.2 q.1) = none) ∧
    (∀ q ∈ invs, cacheGet c2 (ext.hash2 q.2 q.1) = some (ext.render q.1 q.2)) ∧
    ps.length = (blocksOf buffer).length ∧
    (∀ i, i < (blocksOf buffer).length →
      carriesFingerprint (ps.getD i "")
        (hashOf ext ((blocksOf buffer).getD i blkDefault)) = true) := by
  obtain ⟨nw, added, j1, j2, j3, j4, j5, j6, j7, j8⟩ :=
    renderBlocks_sound ext (blocksOf buffer) cache [] ps c2 invs hpr
  have hnw : invs = nw := by simpa using j1
  subst hnw
  refine ⟨j4, j5, j6, j7, ?_⟩
  intro i hi
  obtain ⟨r, _, hbp⟩ := j8 i hi
  rcases blockPlaceholder_shape hbp with ⟨msg, _, hp⟩ | ⟨bytes, mag, u, suf, _, _, _, hp⟩
  · rw [hp]; exact carries_failPlaceholder _ _
  · rw [hp]; exact carries_okPlaceholder _ _ _

/-- C1 witness: a document with the same block twice renders once, from an empty cache. -/
theorem claim_C1_witness :
    ((([("x", "tikzpicture")] : List (String × String)).map
        fun q => extOk.hash2 q.2 q.1).Nodup) ∧
    (∀ q ∈ ([("x", "tikzpicture")] : List (String × String)),
      cacheGet [] (extOk.hash2 q.2 q.1) = none) :=
  let r := claim_C1 extOk [] "a tikzpicture[```x```] b tikzpicture[```x```] c"
    ["image(\"generated_tikz_1101.svg\", width: 3cm)",
     "image(\"generated_tikz_1101.svg\", width: 3cm)"]
    [(1101, Except.ok [0])] [("x", "tikzpicture")] rfl
  ⟨r.1, r.2.1⟩

/-- C2: the input text decomposes into the text before the first match, then for each of
the N matched blocks the matched region followed by the text after it; when `replace`
returns, its output is that same decomposition with each matched region replaced by its
placeholder — exactly N embed directives, in match order, with every character outside
the matched regions byte-identical.  In particular a document with no match is returned
unchanged, with no renderer invocation and no error. -/
theorem claim_C2 (ext : Ext) (cache : Cache) (buffer : String) :
    buffer.toList = gap0Of buffer ++
      ((scan buffer.toList).2.flatMap fun mg => region mg.1 ++ mg.2) ∧
    (∀ out c2 invs, replace ext cache buffer = .ok (out, c2, invs) →
      ∃ ps, ps.length = (blocksOf buffer).length ∧
        (∀ i, i < ps.length → isEmbedDirective (ps.getD i "") = true) ∧
        out.toList = gap0Of buffer ++ stitch ps (gapsOf buffer)) ∧
    ((scan buffer.toList).2 = [] → replace ext cache buffer = .ok (buffer, cache, [])) := by
  refine ⟨scan_decomp _, ?_, ?_⟩
  · intro out c2 invs hrep
    simp only [replace] at hrep
    cases hr : renderBlocks ext cache [] ((scan buffer.toList).2.map Prod.fst) with
    | panicked cause => rw [hr] at hrep; cases hrep
    | ok trip =>
      obtain ⟨ps, c2', invs'⟩ := trip
      rw [hr] at hrep
      simp only [Outcome.ok.injEq, Prod.mk.injEq] at hrep
      obtain ⟨ho, hc2, hi2⟩ := hrep
      have hr' : renderBlocks ext cache [] (blocksOf buffer) = .ok (ps, c2', invs') := hr
      obtain ⟨nw, added, j1, j2, j3, j4, j5, j6, j7, j8⟩ :=
        renderBlocks_sound ext (blocksOf buffer) cache [] ps c2' invs' hr'
      refine ⟨ps, j7, ?_, ?_⟩
      · intro i hi
        have hi' : i < (blocksOf buffer).length := by rw [← j7]; exact hi
        obtain ⟨r, _, hbp⟩ := j8 i hi'
        rcases blockPlaceholder_shape hbp with ⟨msg, _, hp⟩ |
          ⟨bytes, mag, u, suf, _, _, _, hp⟩
        · rw [hp]; exact isEmbedDirective_failPlaceholder _ _
        · rw [hp]; exact isEmbedDirective_okPlaceholder _ _ _
      · rw [← ho, str_toList_mk]
        rfl
  · intro hms
    simp only [replace]
    have h1 : (scan buffer.toList).2.map Prod.fst = [] := by rw [hms]; rfl
    have h2 : (scan buffer.toList).2.map Prod.snd = [] := by rw [hms]; rfl
    rw [h1, h2]
    simp only [renderBlocks]
    have h4 : (scan buffer.toList).1 = buffer.toList := by
      have h5 := scan_decomp buffer.toList
      rw [hms] at h5
      simpa using h5.symm
    rw [h4]
    have h6 : stitch [] [] = ([] : List Char) := rfl
    rw [h6, List.append_nil, str_mk_toList]

/-- C2 witness: a document without any diagram block is returned unchanged. -/
theorem claim_C2_witness :
    replace extOk [] "plain text" = .ok ("plain text", [], []) :=
  (claim_C2 extOk [] "plain text").2.2 rfl

/-- C3: for every matched block, the final cache holds a result under the block's
fingerprint; if that result is a failure the emitted placeholder is
`image("<prefix><fingerprint-in-decimal><suffix>")` followed only by the recorded
newlines (no width clause), and if it is a success the placeholder is
`image("<prefix><fingerprint-in-decimal><suffix>", width: <magnitude><unit>)` with the
unit symbol drawn from {em, pt, cm, mm, in, %}. -/
theorem claim_C3 (ext : Ext) (cache : Cache) (buffer : String)
    (ps : List String) (c2 : Cache) (invs : List (String × String))
    (hpr : renderBlocks ext cache [] (blocksOf buffer) = .ok (ps, c2, invs)) :
    ∀ i, i < (blocksOf buffer).length →
      ∃ r, cacheGet c2 (hashOf ext ((blocksOf buffer).getD i blkDefault)) = some r ∧
        (∀ msg, r = .error msg → ps.getD i "" =
          failPlaceholder (hashOf ext ((blocksOf buffer).getD i blkDefault))
            (countNl ((blocksOf buffer).getD i blkDefault).block)) ∧
        (∀ bytes, r = .ok bytes → ∃ mag u suf,
          ext.meta bytes = .width mag u ∧
          suf ∈ (["em", "pt", "cm", "mm", "in", "%"] : List String) ∧
          ps.getD i "" = okPlaceholder
            (hashOf ext ((blocksOf buffer).getD i blkDefault)) (mag ++ suf)
            (countNl ((blocksOf buffer).getD i blkDefault).block)) := by
  obtain ⟨nw, added, j1, j2, j3, j4, j5, j6, j7, j8⟩ :=
    renderBlocks_sound ext (blocksOf buffer) cache [] ps c2 invs hpr
  intro i hi
  obtain ⟨r, hcg, hbp⟩ := j8 i hi
  refine ⟨r, hcg, ?_, ?_⟩
  · intro msg hmsg
    subst hmsg
    rcases blockPlaceholder_shape hbp with ⟨msg', _, hp⟩ |
      ⟨bytes, mag, u, suf, habs, _, _, _⟩
    · exact hp
    · cases habs
  · intro bytes hbytes
    subst hbytes
    rcases blockPlaceholder_shape hbp with ⟨msg', habs, _⟩ |
      ⟨bytes', mag, u, suf, hb2, hm, hsuf, hp⟩
    · cases habs
    · injection hb2 with hbb
      subst hbb
      exact ⟨mag, u, suf, hm, hsuf, hp⟩

/-- C3 witness: with a failing renderer, the first of the two identical blocks gets the
width-less placeholder for its fingerprint. -/
theorem claim_C3_witness :
    ((["image(\"generated_tikz_12.svg\")", "image(\"generated_tikz_12.svg\")"] :
      List String).getD 0 "") = failPlaceholder 12 0 := by
  obtain ⟨r, hcg, hfail, _⟩ := claim_C3 extErr []
    "a tikzpicture[```x```] b tikzpicture[```x```] c"
    ["image(\"generated_tikz_12.svg\")", "image(\"generated_tikz_12.svg\")"]
    [(12, Except.error "boom")] [("x", "tikzpicture")] rfl 0 (by decide)
  have hcg2 : cacheGet [(12, Except.error "boom")]
      (hashOf extErr ((blocksOf
        "a tikzpicture[```x```] b tikzpicture[```x```] c").getD 0 blkDefault))
      = some (Except.error "boom") := rfl
  rw [hcg2] at hcg
  injection hcg with hr
  exact hfail "boom" hr.symm

/-- C4: decoding the filename the rewriter produces for any 64-bit fingerprint — the
fixed prefix, the decimal rendering of the fingerprint, the fixed suffix — with
`is_filename` returns exactly that fingerprint. -/
theorem claim_C4 (h : Nat) (hlt : h < 2 ^ 64) : is_filename (filenameOf h) = some h := by
  unfold is_filename filenameOf
  have htl : (( PREFIX ++ String.mk (natToDec h) ++ SUFFIX)).toList
      = PREFIX.toList ++ (natToDec h ++ SUFFIX.toList) := by
    simp [str_toList_append, str_toList_mk, List.append_assoc]
  rw [htl]
  have hpre := isPrefixOf_append_self ( PREFIX.toList) (natToDec h ++ SUFFIX.toList)
  have hsuf : SUFFIX.toList.isSuffixOf
      ( PREFIX.toList ++ (natToDec h ++ SUFFIX.toList)) = true := by
    have h0 := isSuffixOf_append_self ( SUFFIX.toList) ( PREFIX.toList ++ natToDec h)
    rw [List.append_assoc] at h0
    exact h0
  rw [if_pos (by rw [Bool.and_eq_true]; exact ⟨hpre, hsuf⟩)]
  have hP : PREFIX_SIZE = 15 := rfl
  have hS : SUFFIX_SIZE = 4 := rfl
  have hPl : PREFIX.toList.length = 15 := rfl
  have hSl : SUFFIX.toList.length = 4 := rfl
  rw [hP, hS]
  have hdrop : ( PREFIX.toList ++ (natToDec h ++ SUFFIX.toList)).drop 15
      = natToDec h ++ SUFFIX.toList := by
    have h0 := List.drop_left ( PREFIX.toList) (natToDec h ++ SUFFIX.toList)
    rwa [hPl] at h0
  rw [hdrop]
  have hlen : ( PREFIX.toList ++ (natToDec h ++ SUFFIX.toList)).length
      = 15 + ((natToDec h).length + 4) := by
    rw [List.length_append, List.length_append, hPl, hSl]
  rw [hlen]
  have harith : 15 + ((natToDec h).length + 4) - 4 - 15 = (natToDec h).length := by
    omega
  rw [harith]
  have htake : (natToDec h ++ SUFFIX.toList).take (natToDec h).length = natToDec h :=
    List.take_left _ _
  rw [htake]
  exact parseU64_natToDec h hlt

/-- C4 witness: the round trip at the concrete fingerprint 12345. -/
theorem claim_C4_witness :
    12345 < 2 ^ 64 ∧ is_filename (filenameOf 12345) = some 12345 :=
  ⟨by decide, claim_C4 12345 (by decide)⟩

/-- C5: the cache is append-only across a `replace` pass: the starting cache is a prefix
of the final one (no entry is removed or overwritten), any lookup that succeeded before
the pass returns the identical result afterwards (stored results are immutable and
unaffected by later insertions), and distinctness of keys is preserved (every key is
inserted at most once). -/
theorem claim_C5 (ext : Ext) (cache : Cache) (buffer : String)
    (out : String) (c2 : Cache) (invs : List (String × String))
    (hrep : replace ext cache buffer = .ok (out, c2, invs)) :
    cache <+: c2 ∧
    (∀ k r, cacheGet cache k = some r → cacheGet c2 k = some r) ∧
    ((cache.map Prod.fst).Nodup → (c2.map Prod.fst).Nodup) := by
  simp only [replace] at hrep
  cases hr : renderBlocks ext cache [] ((scan buffer.toList).2.map Prod.fst) with
  | panicked cause => rw [hr] at hrep; cases hrep
  | ok trip =>
    obtain ⟨ps, c2', invs'⟩ := trip
    rw [hr] at hrep
    simp only [Outcome.ok.injEq, Prod.mk.injEq] at hrep
    obtain ⟨_, hc2, _⟩ := hrep
    subst hc2
    have hr' : renderBlocks ext cache [] (blocksOf buffer) = .ok (ps, c2', invs') := hr
    obtain ⟨nw, added, j1, j2, j3, j4, j5, j6, j7, j8⟩ :=
      renderBlocks_sound ext (blocksOf buffer) cache [] ps c2' invs' hr'
    subst j2
    refine ⟨⟨added, rfl⟩, ?_, ?_⟩
    · intro k r hk
      exact cacheGet_append_some added hk
    · intro hnd
      rw [List.map_append, List.nodup_append]
      refine ⟨hnd, ?_, ?_⟩
      · rw [j3]; exact j4
      · intro a ha hamem
        rw [j3] at hamem
        obtain ⟨q, hq, hqe⟩ := List.mem_map.mp hamem
        have hqe' : ext.hash2 q.2 q.1 = a := hqe
        have h5 := j5 q hq
        rw [cacheGet_eq_none_iff] at h5
        rw [hqe'] at h5
        exact h5 ha

/-- C5 witness: processing a concrete document extends the empty cache by exactly the
one rendered entry. -/
theorem claim_C5_witness :
    ([] : Cache) <+: [(1101, Except.ok [0])] :=
  (claim_C5 extOk [] "a tikzpicture[```x```] b tikzpicture[```x```] c"
    "a image(\"generated_tikz_1101.svg\", width: 3cm) b image(\"generated_tikz_1101.svg\", width: 3cm) c"
    [(1101, Except.ok [0])] [("x", "tikzpicture")] rfl).1

/-- C6 counterexample: the extraction pattern requires a triple-backtick fence inside the
brackets, so the claim's input `tikzpicture[\node{A[1]};]` does not match at all — it is
not extracted as a single block with payload `\node{A[1]};`; `replace` leaves the text
untouched. -/
theorem claim_C6_cex :
    (scan "tikzpicture[\\node{A[1]};]".toList).2 = [] ∧
    replace extOk [] "tikzpicture[\\node{A[1]};]"
      = .ok ("tikzpicture[\\node{A[1]};]", [], []) := by
  constructor
  · rfl
  · rfl

/-- C6 amended: the unfenced input `tikzpicture[\node{A[1]};]` matches nothing and is
left untouched; the fenced input `tikzpicture[` fence `\node{A[1]};` fence `]` is
extracted as one single block with payload `\node{A[1]};` — the inner `[1]` does not
split the match, which ends only at the closing fence followed by `]`. -/
theorem claim_C6_amended :
    (scan "tikzpicture[\\node{A[1]};]".toList).2 = [] ∧
    scan "tikzpicture[```\\node{A[1]};```]".toList =
      ([], [({ environment := "tikzpicture", block := "```\\node{A[1]};```",
               texCode := "\\node{A[1]};" }, [])]) := by
  constructor
  · rfl
  · rfl

/-- C7: line-count preservation.  Every emitted placeholder is a newline-free directive
followed by exactly as many newline characters as the recorded lines value of its block
(the newline count of the bracketed payload), so the rewritten document has the same
total number of newline characters as the input.  The hypothesis states the external
fact that Rust's formatting of the `f64` width magnitude never contains a newline. -/
theorem claim_C7 (ext : Ext) (cache : Cache) (buffer : String)
    (out : String) (c2 : Cache) (invs : List (String × String))
    (hmeta : ∀ b mag u, ext.meta b = .width mag u → mag.toList.count '\n' = 0)
    (hrep : replace ext cache buffer = .ok (out, c2, invs)) :
    out.toList.count '\n' = buffer.toList.count '\n' ∧
    (∀ ps c3 invs3,
      renderBlocks ext cache [] (blocksOf buffer) = .ok (ps, c3, invs3) →
      ∀ i, i < (blocksOf buffer).length →
        ∃ body : String, ps.getD i "" = body ++
          String.mk (List.replicate
            (countNl ((blocksOf buffer).getD i blkDefault).block) '\n')) := by
  constructor
  · simp only [replace] at hrep
    cases hr : renderBlocks ext cache [] ((scan buffer.toList).2.map Prod.fst) with
    | panicked cause => rw [hr] at hrep; cases hrep
    | ok trip =>
      obtain ⟨ps, c2', invs'⟩ := trip
      rw [hr] at hrep
      simp only [Outcome.ok.injEq, Prod.mk.injEq] at hrep
      obtain ⟨ho, _, _⟩ := hrep
      have hr' : renderBlocks ext cache [] (blocksOf buffer) = .ok (ps, c2', invs') := hr
      obtain ⟨nw, added, j1, j2, j3, j4, j5, j6, j7, j8⟩ :=
        renderBlocks_sound ext (blocksOf buffer) cache [] ps c2' invs' hr'
      have hmap : (blocksOf buffer).length = (scan buffer.toList).2.length :=
        List.length_map _ _
      have hlen : ps.length = (scan buffer.toList).2.length := by omega
      have hcnt : ∀ i, i < (scan buffer.toList).2.length →
          (ps.getD i "").toList.count '\n'
            = (region ((scan buffer.toList).2.getD i (blkDefault, [])).1).count '\n' := by
        intro i hi
        have hi' : i < (blocksOf buffer).length := by omega
        obtain ⟨r, _, hbp⟩ := j8 i hi'
        have h1 := count_blockPlaceholder hmeta hbp
        have h2 : (blocksOf buffer).getD i blkDefault
            = ((scan buffer.toList).2.getD i (blkDefault, [])).1 :=
          getD_map_fst _ i hi
        have henv := scan_env (getD_mem (scan buffer.toList).2 i hi)
        have h3 := count_region henv
        rw [h3, h1, h2]
      rw [← ho, str_toList_mk, List.count_append]
      rw [count_stitch_eq (scan buffer.toList).2 ps hlen hcnt]
      conv_rhs => rw [scan_decomp buffer.toList]
      rw [List.count_append]
  · intro ps c3 invs3 hpr3 i hi
    obtain ⟨nw, added, j1, j2, j3, j4, j5, j6, j7, j8⟩ :=
      renderBlocks_sound ext (blocksOf buffer) cache [] ps c3 invs3 hpr3
    obtain ⟨r, _, hbp⟩ := j8 i hi
    rcases blockPlaceholder_shape hbp with ⟨msg, _, hp⟩ |
      ⟨bytes, mag, u, suf, _, _, _, hp⟩
    · exact ⟨"image(\"" ++
        filenameOf (hashOf ext ((blocksOf buffer).getD i blkDefault)) ++ "\"" ++ ")",
        by rw [hp]; rfl⟩
    · exact ⟨"image(\"" ++
        filenameOf (hashOf ext ((blocksOf buffer).getD i blkDefault)) ++ "\"" ++
        ", width: " ++ (mag ++ suf) ++ ")",
        by rw [hp]; rfl⟩

/-- C7 witness: the concrete rewrite with a successful 3cm render has the same newline
count as its input. -/
theorem claim_C7_witness :
    ("a image(\"generated_tikz_1101.svg\", width: 3cm) b image(\"generated_tikz_1101.svg\", width: 3cm) c".toList.count '\n')
      = ("a tikzpicture[```x```] b tikzpicture[```x```] c".toList.count '\n') :=
  (claim_C7 extOk [] "a tikzpicture[```x```] b tikzpicture[```x```] c"
    "a image(\"generated_tikz_1101.svg\", width: 3cm) b image(\"generated_tikz_1101.svg\", width: 3cm) c"
    [(1101, Except.ok [0])] [("x", "tikzpicture")]
    (fun b mag u hbm => by injection hbm with h1 h2; subst h1; decide) rfl).1

/-- C8: when a rendered image declares a width whose unit lies outside the closed set
{em, pt, cm, mm, in, %} (the spare `svg_metadata` units Ex, Px, Pc), building its
placeholder panics with the unsupported-unit panic instead of producing a placeholder or
a Failed entry; for any unit inside the set the pipeline emits the placeholder whose
width clause is the magnitude followed by that unit's canonical symbol. -/
theorem claim_C8 (ext : Ext) (h : Nat) (bytes : List Nat) (n : Nat)
    (mag : String) (u : SvgUnit) (hm : ext.meta bytes = .width mag u) :
    (formatWidth mag u = none ↔ (u = .Ex ∨ u = .Px ∨ u = .Pc)) ∧
    ((u = .Ex ∨ u = .Px ∨ u = .Pc) →
      blockPlaceholder ext h (.ok bytes) n = .panicked .unsupportedUnit) ∧
    (∀ w, formatWidth mag u = some w →
      blockPlaceholder ext h (.ok bytes) n = .ok (okPlaceholder h w n) ∧
      ∃ suf, suf ∈ (["em", "pt", "cm", "mm", "in", "%"] : List String) ∧
        w = mag ++ suf) := by
  refine ⟨formatWidth_none_iff mag u, ?_, ?_⟩
  · intro hu
    have hw : formatWidth mag u = none := (formatWidth_none_iff mag u).mpr hu
    simp [blockPlaceholder, hm, hw]
  · intro w hw
    refine ⟨?_, formatWidth_eq mag u w hw⟩
    simp [blockPlaceholder, hm, hw]

/-- C8 witness: a declared width of `7px` panics with the unsupported-unit cause. -/
theorem claim_C8_witness :
    blockPlaceholder extPx 0 (.ok []) 0 = .panicked .unsupportedUnit :=
  (claim_C8 extPx 0 [] 0 "7" .Px rfl).2.1 (Or.inr (Or.inl rfl))

theorem parseU64_some_iff (l : List Char) (h : Nat) :
    parseU64 l = some h ↔
      ∃ ds, (l = ds ∨ l = '+' :: ds) ∧ ds ≠ [] ∧ (∀ c ∈ ds, c.isDigit = true) ∧
        digitsVal ds = h ∧ h < 2 ^ 64 := by
  constructor
  · intro hp
    unfold parseU64 at hp
    by_cases hplus : l.head? = some '+'
    · rw [if_pos hplus] at hp
      by_cases hemp : l.tail.isEmpty = true
      · rw [if_pos hemp] at hp; cases hp
      · rw [if_neg hemp] at hp
        cases hpd : parseDigitsAux 0 l.tail with
        | none => rw [hpd] at hp; cases hp
        | some v =>
          rw [hpd] at hp
          have hp2 : (if v < 2 ^ 64 then some v else none) = some h := hp
          by_cases hv : v < 2 ^ 64
          · rw [if_pos hv] at hp2
            injection hp2 with hvh
            subst hvh
            obtain ⟨hall, hval⟩ := parseDigitsAux_sound _ _ _ hpd
            refine ⟨l.tail, Or.inr ?_, ?_, hall, hval.symm, hv⟩
            · cases l with
              | nil => simp at hplus
              | cons c t =>
                have hc : c = '+' := by simpa using hplus
                rw [hc]
                rfl
            · intro hnil
              exact hemp (by rw [hnil]; rfl)
          · rw [if_neg hv] at hp2; cases hp2
    · rw [if_neg hplus] at hp
      by_cases hemp : l.isEmpty = true
      · rw [if_pos hemp] at hp; cases hp
      · rw [if_neg hemp] at hp
        cases hpd : parseDigitsAux 0 l with
        | none => rw [hpd] at hp; cases hp
        | some v =>
          rw [hpd] at hp
          have hp2 : (if v < 2 ^ 64 then some v else none) = some h := hp
          by_cases hv : v < 2 ^ 64
          · rw [if_pos hv] at hp2
            injection hp2 with hvh
            subst hvh
            obtain ⟨hall, hval⟩ := parseDigitsAux_sound _ _ _ hpd
            exact ⟨l, Or.inl rfl, fun hnil => hemp (by rw [hnil]; rfl),
              hall, hval.symm, hv⟩
          · rw [if_neg hv] at hp2; cases hp2
  · rintro ⟨ds, hor, hne, hdig, hval, hlt⟩
    have hemp : ¬ ds.isEmpty = true := fun hE => hne (List.isEmpty_iff.mp hE)
    rcases hor with hl | hl
    · rw [hl]
      unfold parseU64
      have hplus : ¬ ds.head? = some '+' := by
        cases ds with
        | nil => simp
        | cons c t =>
          have hc := hdig c (by simp)
          simp only [List.head?, Option.some.injEq]
          intro hEq
          rw [hEq] at hc
          exact absurd hc (by decide)
      rw [if_neg hplus]
      rw [if_neg hemp, parseDigitsAux_complete ds 0 hdig]
      show (if digitsVal ds < 2 ^ 64 then some (digitsVal ds) else none) = some h
      rw [hval, if_pos hlt]
    · rw [hl]
      unfold parseU64
      have hplus : ('+' :: ds).head? = some '+' := rfl
      rw [if_pos hplus]
      have ht : ('+' :: ds).tail = ds := rfl
      rw [ht]
      rw [if_neg hemp, parseDigitsAux_complete ds 0 hdig]
      show (if digitsVal ds < 2 ^ 64 then some (digitsVal ds) else none) = some h
      rw [hval, if_pos hlt]

theorem affix_split {name : String} {t : List Char}
    (ht : name.toList = t ++ SUFFIX.toList) :
    name.toList.drop (name.toList.length - 4) = SUFFIX.toList := by
  rw [ht]
  have hSl : SUFFIX.toList.length = 4 := rfl
  rw [List.length_append, hSl]
  have h4 : t.length + 4 - 4 = t.length := by omega
  rw [h4]
  exact List.drop_left _ _

theorem is_filename_split {name : String}
    (hp : PREFIX.toList.isPrefixOf name.toList = true)
    (hs : SUFFIX.toList.isSuffixOf name.toList = true)
    (hne : (name.toList.drop 15).take (name.toList.length - 4 - 15) ≠ []) :
    name.toList = PREFIX.toList ++
      ((name.toList.drop 15).take (name.toList.length - 4 - 15) ++ SUFFIX.toList) := by
  obtain ⟨t, ht⟩ := isSuffixOf_exists hs
  have hd := isPrefixOf_decomp _ _ hp
  have hPl : PREFIX.toList.length = 15 := rfl
  rw [hPl] at hd
  have heq1 : name.toList.length - 4 - 15 = name.toList.length - 19 := by omega
  rw [heq1] at hne ⊢
  have hk : 1 ≤ name.toList.length - 19 := by
    by_contra hcontra
    push_neg at hcontra
    have h0 : name.toList.length - 19 = 0 := by omega
    rw [h0] at hne
    simp at hne
  conv_lhs => rw [hd]
  congr 1
  conv_lhs => rw [← List.take_append_drop (name.toList.length - 19) (name.toList.drop 15)]
  congr 1
  rw [List.drop_drop]
  have hd4 : 15 + (name.toList.length - 19) = name.toList.length - 4 := by omega
  rw [hd4]
  exact affix_split ht

/-- C9: `is_filename` is total and returns `some h` exactly when its input is the fixed
prefix, then a decimal `u64` numeral (Rust's `u64` decimal syntax: an optional leading
`+`, then one or more ASCII digits, with value below 2^64), then the fixed suffix; and
whenever the prefix and suffix guards both pass the input is at least
`PREFIX_SIZE + SUFFIX_SIZE` long, so the byte slice `name[PREFIX_SIZE..len-SUFFIX_SIZE]`
taken by the Rust code is always in bounds (both affixes being ASCII, its endpoints are
character boundaries). -/
theorem claim_C9 (name : String) :
    (∀ h : Nat, is_filename name = some h ↔
      ∃ mid, name.toList = PREFIX.toList ++ (mid ++ SUFFIX.toList) ∧
        ∃ ds, (mid = ds ∨ mid = '+' :: ds) ∧ ds ≠ [] ∧
          (∀ c ∈ ds, c.isDigit = true) ∧ digitsVal ds = h ∧ h < 2 ^ 64) ∧
    ( PREFIX.toList.isPrefixOf name.toList = true →
      SUFFIX.toList.isSuffixOf name.toList = true →
      PREFIX_SIZE + SUFFIX_SIZE ≤ name.toList.length) := by
  constructor
  · intro h
    constructor
    · intro hsome
      unfold is_filename at hsome
      by_cases hg : ( PREFIX.toList.isPrefixOf name.toList &&
          SUFFIX.toList.isSuffixOf name.toList) = true
      · rw [if_pos hg] at hsome
        rw [Bool.and_eq_true] at hg
        obtain ⟨hp, hs⟩ := hg
        have hP : PREFIX_SIZE = 15 := rfl
        have hS : SUFFIX_SIZE = 4 := rfl
        rw [hP, hS] at hsome
        obtain ⟨ds, hor, hne, hdig, hval, hlt⟩ := (parseU64_some_iff _ h).mp hsome
        have hmidne : (name.toList.drop 15).take (name.toList.length - 4 - 15) ≠ [] := by
          rcases hor with hl | hl
          · rw [hl]; exact hne
          · rw [hl]; simp
        have hsplit := is_filename_split hp hs hmidne
        exact ⟨_, hsplit, ds, hor, hne, hdig, hval, hlt⟩
      · rw [if_neg hg] at hsome; cases hsome
    · rintro ⟨mid, hdec, ds, hor, hne, hdig, hval, hlt⟩
      unfold is_filename
      have hp : PREFIX.toList.isPrefixOf name.toList = true :=
        isPrefixOf_of_eq_append hdec
      have hs : SUFFIX.toList.isSuffixOf name.toList = true := by
        rw [hdec, ← List.append_assoc]
        exact isSuffixOf_append_self _ _
      rw [if_pos (by rw [Bool.and_eq_true]; exact ⟨hp, hs⟩)]
      have hP : PREFIX_SIZE = 15 := rfl
      have hS : SUFFIX_SIZE = 4 := rfl
      rw [hP, hS]
      have hPl : PREFIX.toList.length = 15 := rfl
      have hSl : SUFFIX.toList.length = 4 := rfl
      have hdrop : name.toList.drop 15 = mid ++ SUFFIX.toList := by
        rw [hdec]
        have h0 := List.drop_left ( PREFIX.toList) (mid ++ SUFFIX.toList)
        rwa [hPl] at h0
      have hlenn : name.toList.length = 15 + (mid.length + 4) := by
        rw [hdec, List.length_append, List.length_append, hPl, hSl]
      have harith : name.toList.length - 4 - 15 = mid.length := by omega
      rw [hdrop, harith, List.take_left]
      exact (parseU64_some_iff mid h).mpr ⟨ds, hor, hne, hdig, hval, hlt⟩
  · intro hp hs
    have hP : PREFIX_SIZE = 15 := rfl
    have hS : SUFFIX_SIZE = 4 := rfl
    rw [hP, hS]
    by_contra hcon
    push_neg at hcon
    obtain ⟨t, ht⟩ := isSuffixOf_exists hs
    have hd := isPrefixOf_decomp _ _ hp
    have hPl : PREFIX.toList.length = 15 := rfl
    rw [hPl] at hd
    have hlen15 : 15 ≤ name.toList.length := by
      have h0 := congrArg List.length hd
      rw [List.length_append, hPl, List.length_drop] at h0
      omega
    have hsplit2 : ∀ k, k ≤ 14 → name.toList.drop k
        = PREFIX.toList.drop k ++ name.toList.drop 15 := by
      intro k hk
      conv_lhs => rw [hd]
      rw [List.drop_append_eq_append_drop, hPl]
      have h0 : k - 15 = 0 := by omega
      rw [h0, List.drop_zero]
    have hk14 : name.toList.length - 4 ≤ 14 := by omega
    have hfinal : SUFFIX.toList = PREFIX.toList.drop (name.toList.length - 4)
        ++ name.toList.drop 15 := by
      rw [← affix_split ht, hsplit2 _ hk14]
    have hcases : name.toList.length = 15 ∨ name.toList.length = 16 ∨
        name.toList.length = 17 ∨ name.toList.length = 18 := by omega
    have hy : SUFFIX.toList = ['.', 's', 'v', 'g'] := rfl
    rcases hcases with hx | hx | hx | hx <;> rw [hx] at hfinal <;> rw [hy] at hfinal
    · have hz : PREFIX.toList.drop (15 - 4) = ['i', 'k', 'z', '_'] := rfl
      rw [hz, List.cons_append] at hfinal
      injection hfinal with h1 _
      exact absurd h1 (by decide)
    · have hz : PREFIX.toList.drop (16 - 4) = ['k', 'z', '_'] := rfl
      rw [hz, List.cons_append] at hfinal
      injection hfinal with h1 _
      exact absurd h1 (by decide)
    · have hz : PREFIX.toList.drop (17 - 4) = ['z', '_'] := rfl
      rw [hz, List.cons_append] at hfinal
      injection hfinal with h1 _
      exact absurd h1 (by decide)
    · have hz : PREFIX.toList.drop (18 - 4) = ['_'] := rfl
      rw [hz, List.cons_append] at hfinal
      injection hfinal with h1 _
      exact absurd h1 (by decide)

/-- C9 witness: the filename for fingerprint 42 decodes to 42. -/
theorem claim_C9_witness :
    is_filename "generated_tikz_42.svg" = some 42 :=
  ((claim_C9 "generated_tikz_42.svg").1 42).mpr
    ⟨['4', '2'], by decide, ['4', '2'], Or.inl rfl, by decide, by decide, by decide,
      by decide⟩

/-- C10: for a block whose render succeeded, each failure of the metadata boundary —
bytes that are not valid UTF-8, unparsable SVG metadata, or metadata with no declared
width — makes the pipeline panic rather than emit a placeholder or record a failure;
the only recoverable failures are the results already stored as `Failed` by the
renderer, which always yield the width-less placeholder. -/
theorem claim_C10 (ext : Ext) (h : Nat) (bytes : List Nat) (n : Nat) :
    (ext.meta bytes = .notUtf8 →
      blockPlaceholder ext h (.ok bytes) n = .panicked .invalidUtf8) ∧
    (ext.meta bytes = .parseErr →
      blockPlaceholder ext h (.ok bytes) n = .panicked .metadataParse) ∧
    (ext.meta bytes = .noWidth →
      blockPlaceholder ext h (.ok bytes) n = .panicked .missingWidth) ∧
    (∀ msg, blockPlaceholder ext h (.error msg) n = .ok (failPlaceholder h n)) := by
  refine ⟨?_, ?_, ?_, ?_⟩
  · intro hm; simp [blockPlaceholder, hm]
  · intro hm; simp [blockPlaceholder, hm]
  · intro hm; simp [blockPlaceholder, hm]
  · intro msg; simp [blockPlaceholder]

/-- C10 witness: a renderer success whose bytes carry no declared width panics with the
missing-width cause. -/
theorem claim_C10_witness :
    blockPlaceholder extErr 5 (.ok []) 0 = .panicked .missingWidth :=
  (claim_C10 extErr 5 [] 0).2.2.1 rfl

end Tikz
